/-
  A verification development for the loxer repository: a shallow embedding
  of its scanner (src/scanner.rs), parser (src/parser.rs), value model
  (src/value.rs), tree-walking evaluator (src/interpreter.rs) and the
  diagnostic rendering of src/main.rs, together with theorems about the
  behaviour these components exhibit.

  Modelling conventions:
  * Rust `&str` source buffers are `List Char`; byte positions (`usize`,
    `u32` offsets) are `Nat`, counted with UTF-8 character sizes so that
    byte arithmetic matches Rust exactly.  `i32` fields are `Int`.
  * Rust slicing `&input[a..b]` panics when `a > b`, when `b` exceeds the
    buffer length, or when an index is not a character boundary; the model
    mirrors this with `sliceBytes?`, whose `none` result stands for that
    abort.  Fallible functions that can reach such an abort return
    `Option`, with `none` for the panic.
  * Rust `f64` is modelled by the exact-fraction type `Number` below; the
    claims under study never depend on floating-point rounding, infinities
    or NaN.
  * Lazy iterators are modelled as fuelled structural recursions; the fuel
    bounds are justified by explicit sufficiency lemmas.
-/
import Mathlib

deriving instance DecidableEq for Except

/-- Total UTF-8 byte length of a character list, matching Rust's `str::len`. -/
def blen (l : List Char) : Nat := (l.map Char.utf8Size).sum

/-- A byte offset `n` lies on a UTF-8 character boundary of `l`. -/
def isBoundary (l : List Char) (n : Nat) : Prop :=
  ∃ pre : List Char, pre <+: l ∧ blen pre = n

/-- Drop the characters making up the first `n` bytes (best effort, total;
call sites in the scanner only use aligned offsets). -/
def dropB : List Char → Nat → List Char
  | l, 0 => l
  | [], _ + 1 => []
  | c :: cs, n + 1 =>
    if c.utf8Size ≤ n + 1 then dropB cs (n + 1 - c.utf8Size) else c :: cs

/-- Take the characters making up the first `n` bytes (best effort, total). -/
def takeB : List Char → Nat → List Char
  | _, 0 => []
  | [], _ + 1 => []
  | c :: cs, n + 1 =>
    if c.utf8Size ≤ n + 1 then c :: takeB cs (n + 1 - c.utf8Size) else []

/-- Byte-offset slice `l[a..b]`, total version used where Rust indices are
known to be in range. -/
def sliceB (l : List Char) (a b : Nat) : List Char := takeB (dropB l a) (b - a)

/-- `alignedB l n` holds when `n` is a character boundary of `l` and
`n ≤ blen l`; this is exactly the in-bounds condition of Rust `&str`
indexing at offset `n`. -/
def alignedB : List Char → Nat → Bool
  | _, 0 => true
  | [], _ + 1 => false
  | c :: cs, n + 1 =>
    if c.utf8Size ≤ n + 1 then alignedB cs (n + 1 - c.utf8Size) else false

/-- Checked byte-offset slice of the source buffer: `some` exactly when Rust
`&input[a..b]` succeeds, `none` when Rust would panic (negative index cast
to a huge `usize`, inverted range, index past the end, or an index not on a
character boundary). -/
def sliceBytes? (l : List Char) (a b : Int) : Option (List Char) :=
  if 0 ≤ a ∧ a ≤ b ∧ alignedB l a.toNat ∧ alignedB l b.toNat then
    some (sliceB l a.toNat b.toNat)
  else
    none

/-- Token classification, from `TokenType` in src/scanner.rs (keyword
constructors carry a `kw` prefix because the bare names are Lean keywords). -/
inductive TokenType
  | lparen | rparen | lbrace | rbrace | comma | dot | minus | plus
  | semicolon | slash | star
  | bang | bangEqual | equal | equalEqual
  | greater | greaterEqual | less | lessEqual
  | identifier | string | number
  | kwAnd | kwClass | kwElse | kwFalse | kwFun | kwFor | kwIf | kwNil
  | kwOr | kwPrint | kwReturn | kwSuper | kwThis | kwTrue | kwVar | kwWhile
  | comment
  | unknown
deriving DecidableEq, Repr

/-- A scanner token: classification, 1-based line, and byte span
`[start, end)` into the source (struct `Token` in src/scanner.rs; the
`Range<u32>` span is modelled as the two `Nat` fields `start` / `stop`,
`stop` standing for the source's `end`, a Lean keyword). -/
structure Token where
  ty : TokenType
  line : Nat
  start : Nat
  stop : Nat
deriving DecidableEq, Repr

/-- Scanner state: the full source plus the remaining character suffix and
the current line (struct `Scanner` in src/scanner.rs). -/
structure ScanState where
  input : List Char
  chars : List Char
  line : Nat
deriving DecidableEq, Repr

/-- Rust `u8::is_ascii_whitespace`, used through `char::is_ascii_whitespace`. -/
def is_ascii_whitespace (c : Char) : Bool :=
  c = ' ' || c = '\t' || c = '\n' || c = '\x0c' || c = '\r'

/-- `is_alphabetic` from src/scanner.rs. -/
def is_alphabetic (c : Char) : Bool := c.isAlpha || c = '_'

/-- `is_alphanumeric` from src/scanner.rs. -/
def is_alphanumeric (c : Char) : Bool := c.isAlphanum || c = '_'

/-- `Scanner::next_char`: pop one character, bumping the line counter on a
newline.  Returns the character, the remaining suffix and the new line. -/
def next_char : List Char → Nat → Option (Char × List Char × Nat)
  | [], _ => none
  | c :: cs, line => some (c, cs, if c = '\n' then line + 1 else line)

/-- `Scanner::consume_while`: drop characters while the predicate holds;
returns the first non-matching character (still unconsumed), or `none` if
the input ran out, together with the remaining suffix and line. -/
def consume_while (p : Char → Bool) : List Char → Nat → Option Char × List Char × Nat
  | [], line => (none, [], line)
  | c :: cs, line =>
    if p c then consume_while p cs (if c = '\n' then line + 1 else line)
    else (some c, c :: cs, line)

/-- `Scanner::peek`: one-character lookahead, `'\x00'` at end of input. -/
def peek (cs : List Char) : Char := cs.head?.getD '\x00'

/-- `Scanner::current_index`: bytes consumed so far
(`input.len() - chars.as_str().len()`). -/
def current_index (input chars : List Char) : Nat := blen input - blen chars

/-- `Scanner::if_peek`: choose the two-character token kind when the next
character matches, consuming it. -/
def if_peek (ch : Char) (matched unmatched : TokenType) (cs : List Char) (line : Nat) :
    TokenType × List Char × Nat :=
  if peek cs = ch then
    match next_char cs line with
    | some (_, cs', l') => (matched, cs', l')
    | none => (matched, cs, line)
  else (unmatched, cs, line)

/-- `Scanner::number`: first pass consumes digits *and* dots; only if the
stopping character is a dot (impossible, since a dot never stops the first
pass) does the second digits-only pass run.  The dead branch is kept to
mirror the source. -/
def scan_number (cs : List Char) (line : Nat) : List Char × Nat :=
  match consume_while (fun c => c.isDigit || c = '.') cs line with
  | (some '.', cs₁, l₁) =>
    match consume_while Char.isDigit cs₁ l₁ with
    | (_, cs₂, l₂) => (cs₂, l₂)
  | (_, cs₁, l₁) => (cs₁, l₁)

/-- `Scanner::comment`: consume up to (excluding) the next newline. -/
def scan_comment (cs : List Char) (line : Nat) : List Char × Nat :=
  match consume_while (fun c => c ≠ '\n') cs line with
  | (_, cs₁, l₁) => (cs₁, l₁)

/-- `Scanner::string`: consume until the next quote; if one was found,
consume it too.  Never fails. -/
def scan_string (cs : List Char) (line : Nat) : List Char × Nat :=
  match consume_while (fun c => c ≠ '"') cs line with
  | (some _, cs₁, l₁) =>
    match next_char cs₁ l₁ with
    | some (_, cs₂, l₂) => (cs₂, l₂)
    | none => (cs₁, l₁)
  | (none, cs₁, l₁) => (cs₁, l₁)

/-- The keyword table of `Scanner::identifier_or_keyword`. -/
def keyword_type (s : List Char) : TokenType :=
  if s = "and".toList then .kwAnd
  else if s = "class".toList then .kwClass
  else if s = "else".toList then .kwElse
  else if s = "false".toList then .kwFalse
  else if s = "for".toList then .kwFor
  else if s = "fun".toList then .kwFun
  else if s = "if".toList then .kwIf
  else if s = "nil".toList then .kwNil
  else if s = "or".toList then .kwOr
  else if s = "print".toList then .kwPrint
  else if s = "return".toList then .kwReturn
  else if s = "super".toList then .kwSuper
  else if s = "this".toList then .kwThis
  else if s = "true".toList then .kwTrue
  else if s = "var".toList then .kwVar
  else if s = "while".toList then .kwWhile
  else .identifier

/-- `Scanner::identifier_or_keyword`: consume the identifier tail, then look
the consumed source slice up in the keyword table. -/
def identifier_or_keyword (input : List Char) (start : Nat) (cs : List Char) (line : Nat) :
    TokenType × List Char × Nat :=
  match consume_while is_alphanumeric cs line with
  | (_, cs', l') => (keyword_type (sliceB input start (current_index input cs')), cs', l')

/-- The shape of the action the match in `<Scanner as Iterator>::next` takes
for one consumed character: emit a fixed kind, probe for a two-character
operator, the `/`-or-comment case, or one of the multi-character scans. -/
inductive ScanAct
  | fixed (ty : TokenType)
  | twoChar (ch : Char) (matched unmatched : TokenType)
  | slashOrComment
  | stringLit
  | numberLit
  | ident
  | other
deriving DecidableEq, Repr

/-- The per-character arm selection of the match in
`<Scanner as Iterator>::next`, as a pure character table. -/
def scan_act (ch : Char) : ScanAct :=
  if ch = '/' then .slashOrComment
  else if ch = '(' then .fixed .lparen
  else if ch = ')' then .fixed .rparen
  else if ch = '{' then .fixed .lbrace
  else if ch = '}' then .fixed .rbrace
  else if ch = ',' then .fixed .comma
  else if ch = '.' then .fixed .dot
  else if ch = '-' then .fixed .minus
  else if ch = '+' then .fixed .plus
  else if ch = ';' then .fixed .semicolon
  else if ch = '*' then .fixed .star
  else if ch = '!' then .twoChar '=' .bangEqual .bang
  else if ch = '=' then .twoChar '=' .equalEqual .equal
  else if ch = '<' then .twoChar '=' .lessEqual .less
  else if ch = '>' then .twoChar '=' .greaterEqual .greater
  else if ch = '"' then .stringLit
  else if ch.isDigit then .numberLit
  else if is_alphabetic ch then .ident
  else .other

/-- The per-character dispatch of `<Scanner as Iterator>::next`, applied to
the already consumed character `ch` with remaining input `cs`: the arm
selected by `scan_act` runs its side effects on the character stream. -/
def classify (input : List Char) (start : Nat) (ch : Char) (cs : List Char) (line : Nat) :
    TokenType × List Char × Nat :=
  match scan_act ch with
  | .fixed ty => (ty, cs, line)
  | .twoChar c m u => if_peek c m u cs line
  | .slashOrComment =>
    if peek cs = '/' then (.comment, (scan_comment cs line).1, (scan_comment cs line).2)
    else (.slash, cs, line)
  | .stringLit => (.string, (scan_string cs line).1, (scan_string cs line).2)
  | .numberLit => (.number, (scan_number cs line).1, (scan_number cs line).2)
  | .ident => identifier_or_keyword input start cs line
  | .other => (.unknown, cs, line)

/-- `<Scanner as Iterator>::next`: skip ASCII whitespace, record the start
offset and line, consume one character and classify; `none` at end of
input. -/
def scan_next (s : ScanState) : Option (Token × ScanState) :=
  match consume_while is_ascii_whitespace s.chars s.line with
  | (_, cs₀, l₀) =>
    let start := current_index s.input cs₀
    match next_char cs₀ l₀ with
    | none => none
    | some (ch, cs₁, l₁) =>
      match classify s.input start ch cs₁ l₁ with
      | (ty, cs₂, l₂) =>
        some (⟨ty, l₀, start, current_index s.input cs₂⟩, ⟨s.input, cs₂, l₂⟩)

/-- Fuelled iteration of `scan_next`; each successful step consumes at least
one character, so `chars.length + 1` fuel is always enough
(`scan_next_some_length_lt` below). -/
def scan_tokensF : Nat → ScanState → List Token
  | 0, _ => []
  | fuel + 1, s =>
    match scan_next s with
    | none => []
    | some (t, s') => t :: scan_tokensF fuel s'

/-- The full token sequence the scanner emits for a source buffer. -/
def scan_tokens (input : List Char) : List Token :=
  scan_tokensF (input.length + 1) ⟨input, input, 1⟩

/-- Runtime value type tags (enum `Type` in src/value.rs; `Type` is a Lean
keyword, hence `Ty`). -/
inductive Ty
  | string | number | boolean | nil
deriving DecidableEq, Repr

/-- Rust `f64` (`type Number = f64` in src/value.rs), modelled as an exact
unreduced fraction `num / den`.  Every value the claims reach keeps
`den > 0` (a zero denominator could arise only through division by zero,
whose IEEE behaviour — infinities and NaN — is outside every claim).
Arithmetic is exact, and equality and order are numeric
(cross-multiplied), matching `f64` comparisons on all finite values. -/
structure Number where
  num : Int
  den : Int
deriving DecidableEq, Repr

instance : OfNat Number n := ⟨⟨n, 1⟩⟩

/-- Exact `f64` addition. -/
def Number.add (x y : Number) : Number := ⟨x.num * y.den + y.num * x.den, x.den * y.den⟩

/-- Exact `f64` subtraction. -/
def Number.sub (x y : Number) : Number := ⟨x.num * y.den - y.num * x.den, x.den * y.den⟩

/-- Exact `f64` multiplication. -/
def Number.mul (x y : Number) : Number := ⟨x.num * y.num, x.den * y.den⟩

/-- Exact `f64` division, keeping the denominator non-negative. -/
def Number.div (x y : Number) : Number :=
  if x.den * y.num < 0 then ⟨-(x.num * y.den), -(x.den * y.num)⟩
  else ⟨x.num * y.den, x.den * y.num⟩

/-- `f64` negation. -/
def Number.negN (x : Number) : Number := ⟨-x.num, x.den⟩

/-- Numeric `f64` equality (`==`), by cross-multiplication. -/
def Number.beq (x y : Number) : Bool := x.num * y.den = y.num * x.den

/-- Numeric `f64` strict order (`<`), valid for positive denominators. -/
def Number.blt (x y : Number) : Bool := x.num * y.den < y.num * x.den

/-- Numeric `f64` order (`<=`), valid for positive denominators. -/
def Number.ble (x y : Number) : Bool := x.num * y.den ≤ y.num * x.den

/-- Runtime values (enum `Value` in src/value.rs). -/
inductive Value
  | string (s : List Char)
  | number (n : Number)
  | boolean (b : Bool)
  | nil
deriving DecidableEq, Repr

/-- The derived `PartialEq` of `Value` (src/value.rs): same-variant
comparison, numeric on numbers, componentwise otherwise; different
variants are unequal. -/
def value_beq : Value → Value → Bool
  | .number x, .number y => Number.beq x y
  | .string a, .string b => a = b
  | .boolean a, .boolean b => a = b
  | .nil, .nil => true
  | _, _ => false

/-- `Value::ty` from src/value.rs. -/
def Value.ty : Value → Ty
  | .string _ => .string
  | .number _ => .number
  | .boolean _ => .boolean
  | .nil => .nil

/-- `TypeError` from src/value.rs: the acceptable types and the offending
value. -/
structure TypeError where
  expected : List Ty
  actual : Value
deriving DecidableEq, Repr

/-- `RuntimeError` from src/interpreter.rs. -/
inductive RuntimeError
  | typeError (e : TypeError)
deriving DecidableEq, Repr

/-- `<Number as Variant>::from_value` from src/value.rs. -/
def number_from_value : Value → Except TypeError Number
  | .number n => .ok n
  | v => .error ⟨[.number], v⟩

/-- Unary operators from src/ast.rs. -/
inductive UnaryOperator
  | neg | not
deriving DecidableEq, Repr

/-- Binary operators from src/ast.rs. -/
inductive BinaryOperator
  | add | sub | div | mul | equal | notEqual
  | greater | greaterEqual | less | lessEqual
deriving DecidableEq, Repr

/-- Expression trees from src/ast.rs. -/
inductive Expression
  | literal (v : Value)
  | grouping (e : Expression)
  | unary (op : UnaryOperator) (e : Expression)
  | binary (op : BinaryOperator) (l : Expression) (r : Expression)
deriving DecidableEq, Repr

/-- Spans as the parser hands them out (struct `Span` in src/span.rs, two
`i32` fields; `stop` stands for the source's `end`). -/
structure Span where
  start : Int
  stop : Int
deriving DecidableEq, Repr

/-- A value together with its source span (struct `Spanned` in
src/span.rs). -/
structure Spanned (α : Type) where
  value : α
  span : Span
deriving DecidableEq, Repr

/-- Parse errors (enum `Error` in src/parser.rs; `Expected` carries the
expected token kind). -/
inductive PError
  | expectedPrimary
  | expected (t : TokenType)
  | malformedNumber
  | malformedString
deriving DecidableEq, Repr

/-- Outcome of one parse attempt: a parsed expression, a parse error, or an
abort (`panic`) raised by an invalid source slice inside literal
conversion. -/
inductive POut
  | ok (e : Expression)
  | perr (e : PError)
  | panic
deriving DecidableEq, Repr

/-- Parser state: the remaining token stream and the `end` position of the
last consumed token (fields `tokens` / `end` of struct `Parser` in
src/parser.rs; the `input` buffer is passed separately). -/
structure PState where
  tokens : List (Spanned TokenType)
  endPos : Int
deriving DecidableEq, Repr

/-- `Parser::next_token`: pop one spanned token, recording its end
position. -/
def next_token : PState → Option (Spanned TokenType) × PState
  | ⟨[], e⟩ => (none, ⟨[], e⟩)
  | ⟨t :: ts, _⟩ => (some t, ⟨ts, t.span.stop⟩)

/-- Operator-table lookup inside `Parser::match_one_of`. -/
def lookup_op {α : Type} (tv : TokenType) : List (TokenType × α) → Option α
  | [] => none
  | (tt, v) :: rest => if tt = tv then some v else lookup_op tv rest

/-- `Parser::match_one_of`: peek at the next token; if its kind appears in
the table, consume it and return the associated value, else leave the
stream untouched. -/
def match_one_of {α : Type} (ops : List (TokenType × α)) (st : PState) :
    Option α × PState :=
  match st.tokens with
  | [] => (none, st)
  | t :: ts =>
    match lookup_op t.value ops with
    | some v => (some v, ⟨ts, t.span.stop⟩)
    | none => (none, st)

/-- `Parser::expect`: consume the next token when it has the expected kind,
else fail with `Expected` without consuming. -/
def expect (expected : TokenType) (st : PState) : Except PError Unit × PState :=
  match st.tokens with
  | t :: ts =>
    if t.value = expected then (.ok (), ⟨ts, t.span.stop⟩)
    else (.error (.expected expected), st)
  | [] => (.error (.expected expected), st)

/-- Value of a digit string (most significant first). -/
def digits_val (l : List Char) : Int :=
  l.foldl (fun acc c => acc * 10 + ((c.toNat - '0'.toNat : ℕ) : Int)) 0

/-- Rust `str::parse::<f64>` restricted to the character material a scanner
`Number` span can contain (digits and dots; `parse_number` is only ever
applied to such spans).  Per Rust's float grammar the string must be
`Digit+ ('.' Digit*)?` or `Digit* '.' Digit+`; anything else — in
particular a second dot — fails.  The numeric value is exact rather than
rounded to `f64`: for `ip.fp` it is the fraction with numerator
`digits ip ++ fp` and denominator `10 ^ length fp`. -/
def float_of_chars? (s : List Char) : Option Number :=
  let ip := s.takeWhile Char.isDigit
  match s.drop ip.length with
  | [] => if ip = [] then none else some ⟨digits_val ip, 1⟩
  | '.' :: fp =>
    if fp.all Char.isDigit && !(ip = [] && fp = []) then
      some ⟨digits_val (ip ++ fp), (10 : Int) ^ fp.length⟩
    else none
  | _ => none

/-- `Parser::parse_number`: slice the source at the token span and convert;
`none` models the panic of an invalid slice (never reached for
scanner-produced spans), `some (.error ...)` is `MalformedNumber`. -/
def parse_number (input : List Char) (sp : Span) : Option (Except PError Number) :=
  match sliceBytes? input sp.start sp.stop with
  | none => none
  | some s =>
    match float_of_chars? s with
    | some q => some (.ok q)
    | none => some (.error .malformedNumber)

/-- `Parser::parse_string`: the lexed span must end with a closing quote,
else `MalformedString`; otherwise slice strictly between the quotes.
`none` models the panic of an invalid slice — reachable, e.g. for the
lone-quote span `[0,1)`, where `input[start+1 .. end-1] = input[1..0]`
is an inverted range. -/
def parse_string (input : List Char) (sp : Span) : Option (Except PError (List Char)) :=
  match sliceBytes? input sp.start sp.stop with
  | none => none
  | some s =>
    if s.getLast? ≠ some '"' then some (.error .malformedString)
    else
      match sliceBytes? input (sp.start + 1) (sp.stop - 1) with
      | none => none
      | some inner => some (.ok inner)

/-- The four binary-precedence levels of the grammar cascade, each with its
operator table and operand rule (`Parser::equality`, `comparison`, `term`,
`factor`, all instances of the generic `Parser::binary`). -/
inductive Level
  | equality | comparison | term | factor
deriving DecidableEq, Repr

/-- Operator table of each precedence level, from src/parser.rs. -/
def level_ops : Level → List (TokenType × BinaryOperator)
  | .equality => [(.bangEqual, .notEqual), (.equalEqual, .equal)]
  | .comparison =>
    [(.greater, .greater), (.greaterEqual, .greaterEqual),
     (.less, .less), (.lessEqual, .lessEqual)]
  | .term => [(.minus, .sub), (.plus, .add)]
  | .factor => [(.slash, .div), (.star, .mul)]

/-- The operator table of `Parser::unary`. -/
def unary_ops : List (TokenType × UnaryOperator) := [(.minus, .neg), (.bang, .not)]

/-- The mutually recursive parse entry points of src/parser.rs, as a single
dispatcher: `expression`, the four `binary` levels (rule and left-fold
loop), `unary` and `primary`. -/
inductive Rule
  | expression
  | binOp (lvl : Level)
  | binLoop (lvl : Level) (left : Expression)
  | unaryR
  | primaryR
deriving DecidableEq, Repr

/-- The operand rule one precedence level up, per the grammar cascade. -/
def operand_rule : Level → Rule
  | .equality => .binOp .comparison
  | .comparison => .binOp .term
  | .term => .binOp .factor
  | .factor => .unaryR

/-- The arm `Parser::primary` selects for one consumed token kind: a direct
literal, numeric or string literal conversion, a parenthesised group, or
the `ExpectedPrimary` default. -/
inductive PrimAct
  | lit (v : Value)
  | num
  | str
  | paren
  | noPrimary
deriving DecidableEq, Repr

/-- The arm selection of the token-kind match in `Parser::primary`. -/
def primary_act : TokenType → PrimAct
  | .kwNil => .lit .nil
  | .kwTrue => .lit (.boolean true)
  | .kwFalse => .lit (.boolean false)
  | .number => .num
  | .string => .str
  | .lparen => .paren
  | _ => .noPrimary

/-- The recursive-descent parser of src/parser.rs as one fuelled dispatcher.
Each branch mirrors the corresponding source function; the fuel only
bounds recursion depth and `parse_suff` below shows that the fuel used by
`parser_next` never runs out. -/
def parseF (input : List Char) : Nat → Rule → PState → Option (POut × PState)
  | 0, _, _ => none
  | fuel + 1, r, st =>
    match r with
    | .expression => parseF input fuel (.binOp .equality) st
    | .binOp lvl =>
      match parseF input fuel (operand_rule lvl) st with
      | some (.ok left, st') => parseF input fuel (.binLoop lvl left) st'
      | other => other
    | .binLoop lvl left =>
      match match_one_of (level_ops lvl) st with
      | (none, st') => some (.ok left, st')
      | (some op, st') =>
        match parseF input fuel (operand_rule lvl) st' with
        | some (.ok right, st'') =>
          parseF input fuel (.binLoop lvl (.binary op left right)) st''
        | other => other
    | .unaryR =>
      match match_one_of unary_ops st with
      | (some op, st') =>
        match parseF input fuel .unaryR st' with
        | some (.ok e, st'') => some (.ok (.unary op e), st'')
        | other => other
      | (none, _) => parseF input fuel .primaryR st
    | .primaryR =>
      match next_token st with
      | (none, st') => some (.perr .expectedPrimary, st')
      | (some t, st') =>
        match primary_act t.value with
        | .lit v => some (.ok (.literal v), st')
        | .num =>
          match parse_number input t.span with
          | none => some (.panic, st')
          | some (.ok n) => some (.ok (.literal (.number n)), st')
          | some (.error e) => some (.perr e, st')
        | .str =>
          match parse_string input t.span with
          | none => some (.panic, st')
          | some (.ok sv) => some (.ok (.literal (.string sv)), st')
          | some (.error e) => some (.perr e, st')
        | .paren =>
          match parseF input fuel .expression st' with
          | some (.ok e, st'') =>
            match expect .rparen st'' with
            | (.ok _, st₃) => some (.ok (.grouping e), st₃)
            | (.error pe, st₃) => some (.perr pe, st₃)
          | other => other
        | .noPrimary => some (.perr .expectedPrimary, st')

/-- `starts_statement` from src/parser.rs. -/
def starts_statement : TokenType → Bool
  | .kwClass | .kwIf | .kwVar | .kwFor | .kwFun | .kwWhile | .kwPrint | .kwReturn => true
  | _ => false

/-- `Parser::synchronize`: discard the next token; stop after discarding a
semicolon, or when the token following a discarded one begins a statement
(leaving it unconsumed); repeat otherwise. -/
def syncAux : List (Spanned TokenType) → Int → PState
  | [], e => ⟨[], e⟩
  | t :: ts, _ =>
    if t.value = .semicolon then ⟨ts, t.span.stop⟩
    else
      match ts with
      | t' :: _ =>
        if starts_statement t'.value then ⟨ts, t.span.stop⟩
        else syncAux ts t.span.stop
      | [] => syncAux ts t.span.stop

/-- `Parser::synchronize` on a parser state. -/
def synchronize (st : PState) : PState := syncAux st.tokens st.endPos

/-- Fuel that `parser_next` hands to `parseF`; `parse_suff` below proves it
is always enough. -/
def parse_fuel (st : PState) : Nat := 12 * st.tokens.length + 11

/-- `<Parser as Iterator>::next`: `none` when the token stream is empty;
otherwise run one `expression` attempt, synchronize on a parse error, and
return the result spanned from the first peeked token to the last consumed
position.  A `panic` outcome (invalid literal slice) aborts: no
synchronization happens and iteration stops.  The `none` fallback of the
inner match models fuel exhaustion, which `parse_suff` proves
unreachable. -/
def parser_next (input : List Char) (st : PState) :
    Option (Spanned POut × PState) :=
  match st.tokens with
  | [] => none
  | t :: _ =>
    let start := t.span.start
    match parseF input (parse_fuel st) .expression st with
    | some (.ok e, st') => some (⟨.ok e, ⟨start, st'.endPos⟩⟩, st')
    | some (.perr pe, st') =>
      let st'' := synchronize st'
      some (⟨.perr pe, ⟨start, st''.endPos⟩⟩, st'')
    | some (.panic, st') => some (⟨.panic, ⟨start, st'.endPos⟩⟩, st')
    | none => some (⟨.panic, ⟨start, st.endPos⟩⟩, ⟨[], st.endPos⟩)

/-- Fuelled iteration of `parser_next`, stopping at a `panic` outcome (the
process aborts there). -/
def parser_results (input : List Char) : Nat → PState → List (Spanned POut)
  | 0, _ => []
  | fuel + 1, st =>
    match parser_next input st with
    | none => []
    | some (r, st') =>
      match r.value with
      | .panic => [r]
      | _ => r :: parser_results input fuel st'

/-- The token stream the driver feeds the parser: scanner output with
comment tokens filtered away (function `run` in src/main.rs), token kinds
paired with their spans. -/
def tokensOf (input : List Char) : List (Spanned TokenType) :=
  ((scan_tokens input).filter (fun t => t.ty ≠ TokenType.comment)).map
    (fun t => ⟨t.ty, ⟨(t.start : Int), (t.stop : Int)⟩⟩)

/-- All parse results the driver sees for a source buffer. -/
def parser_run (input : List Char) : List (Spanned POut) :=
  parser_results input ((tokensOf input).length + 1) ⟨tokensOf input, 0⟩

/-- `is_truthy` from src/interpreter.rs: `false` and `nil` are falsy,
everything else truthy. -/
def is_truthy : Value → Bool
  | .boolean false => false
  | .nil => false
  | _ => true

/-- `eval_binary` from src/interpreter.rs, at its only instantiation
`A = Number`: extract both operands as numbers (left first), then apply. -/
def eval_binary (lv rv : Value) (f : Number → Number → Value) : Except RuntimeError Value :=
  match number_from_value lv with
  | .error e => .error (.typeError e)
  | .ok a =>
    match number_from_value rv with
    | .error e => .error (.typeError e)
    | .ok b => .ok (f a b)

/-- `eval_unary` from src/interpreter.rs at `A = Number` (the `Neg` case). -/
def eval_unary (v : Value) (f : Number → Value) : Except RuntimeError Value :=
  match number_from_value v with
  | .error e => .error (.typeError e)
  | .ok a => .ok (f a)

/-- The operator dispatch of `eval`'s `Binary` arm (src/interpreter.rs),
applied after both operands have been evaluated. -/
def apply_binary : BinaryOperator → Value → Value → Except RuntimeError Value
  | .add, lv, rv =>
    match lv, rv with
    | .string a, .string b => .ok (.string (a ++ b))
    | .number a, .number b => .ok (.number (a.add b))
    | .string _, r => .error (.typeError ⟨[.string], r⟩)
    | .number _, r => .error (.typeError ⟨[.number], r⟩)
    | l, _ => .error (.typeError ⟨[.number, .string], l⟩)
  | .sub, lv, rv => eval_binary lv rv (fun a b => .number (a.sub b))
  | .div, lv, rv => eval_binary lv rv (fun a b => .number (a.div b))
  | .mul, lv, rv => eval_binary lv rv (fun a b => .number (a.mul b))
  | .equal, lv, rv => .ok (.boolean (value_beq lv rv))
  | .notEqual, lv, rv => .ok (.boolean (!value_beq lv rv))
  | .greater, lv, rv => eval_binary lv rv (fun a b => .boolean (b.blt a))
  | .greaterEqual, lv, rv => eval_binary lv rv (fun a b => .boolean (b.ble a))
  | .less, lv, rv => eval_binary lv rv (fun a b => .boolean (a.blt b))
  | .lessEqual, lv, rv => eval_binary lv rv (fun a b => .boolean (a.ble b))

/-- `eval` from src/interpreter.rs: the tree-walking evaluator.  Binary
nodes evaluate the left subtree, then the right subtree, and only then
dispatch on the operator; `?` propagation is the explicit error matches. -/
def eval : Expression → Except RuntimeError Value
  | .literal v => .ok v
  | .grouping e => eval e
  | .unary op e =>
    match eval e with
    | .error err => .error err
    | .ok v =>
      match op with
      | .neg => eval_unary v (fun a => .number a.negN)
      | .not => .ok (.boolean (!is_truthy v))
  | .binary op l r =>
    match eval l with
    | .error e => .error e
    | .ok lv =>
      match eval r with
      | .error e => .error e
      | .ok rv => apply_binary op lv rv

/-- `count_lines` from src/main.rs: `-1` followed by the byte offset of
every newline character. -/
def count_lines (input : List Char) : List Int :=
  -1 :: countLinesAux input 0
where
  /-- Byte offsets of the newline characters, starting at byte `pos`. -/
  countLinesAux : List Char → Nat → List Int
    | [], _ => []
    | c :: cs, pos =>
      if c = '\n' then (pos : Int) :: countLinesAux cs (pos + c.utf8Size)
      else countLinesAux cs (pos + c.utf8Size)

/-- Rust `slice::binary_search(&x).unwrap_or_else(|i| i)` on a strictly
sorted list: the index of `x` when present, else its insertion point — in
both cases the number of elements smaller than `x` (`count_lines` output is
strictly increasing, for which this model is exact). -/
def bsearch_pos (l : List Int) (x : Int) : Nat := (l.filter (fun y => y < x)).length

/-- `println_span` from src/main.rs: locate the lines containing
`span.start` and `span.end - 1` by binary search over the newline offsets,
slice the covered source text, and build the caret underline (leading
spaces, carets, trailing spaces as the three print loops).  Returns the
sliced text and the underline; `none` models an abort: a `usize`
underflow of the `- 1` corrections, an out-of-bounds `lines[...]` index,
or an invalid source slice. -/
def println_span? (input : List Char) (lines : List Int) (sp : Span) :
    Option (List Char × List Char) :=
  let ls := bsearch_pos lines sp.start
  let hs := bsearch_pos lines (sp.stop - 1)
  if ls = 0 ∨ hs = 0 then none
  else
    let low := ls - 1
    let high := hs - 1
    match lines.get? low, lines.get? (high + 1) with
    | some lowOff, some lineEndOff =>
      if lowOff + 1 < 0 ∨ lineEndOff < 0 then none
      else
        let line_start := (lowOff + 1).toNat
        let line_end := lineEndOff.toNat
        match sliceBytes? input (line_start : Int) (line_end : Int) with
        | none => none
        | some text =>
          let spaces := sp.start.toNat - line_start
          let carets := (sp.stop - sp.start).toNat
          let trail := line_end - sp.stop.toNat
          some (text, List.replicate spaces ' ' ++ List.replicate carets '^'
            ++ List.replicate trail ' ')
    | _, _ => none

/-- The span well-formedness invariant of a token list: starting from
position `pos`, each token starts at or after the previous token's end,
its span is ordered and within the source, and both endpoints are UTF-8
character boundaries. -/
def goodFrom (input : List Char) : Nat → List Token → Prop
  | _, [] => True
  | pos, t :: ts =>
    pos ≤ t.start ∧ t.start ≤ t.stop ∧ t.stop ≤ blen input ∧
    isBoundary input t.start ∧ isBoundary input t.stop ∧ goodFrom input t.stop ts

/-- Whether a rule is one of the left-fold loops (which may consume nothing). -/
def Rule.isLoop : Rule → Bool
  | .binLoop _ _ => true
  | _ => false

/-- Termination rank of a rule inside the precedence cascade; used only to
justify the fuel bound of `parseF`. -/
def rank : Rule → Nat
  | .primaryR => 0
  | .unaryR => 1
  | .binLoop .factor _ => 2
  | .binOp .factor => 3
  | .binLoop .term _ => 4
  | .binOp .term => 5
  | .binLoop .comparison _ => 6
  | .binOp .comparison => 7
  | .binLoop .equality _ => 8
  | .binOp .equality => 9
  | .expression => 10

/-- Synchronization exactly as the specification sentence words it (the
comparison definition for the refinement check of the synchronize claim):
examine the remaining tokens one at a time — a Semicolon is discarded and
stops synchronization, a statement-starting keyword stops it without being
consumed, and any other token is discarded. -/
def claimedSynchronize : List (Spanned TokenType) → List (Spanned TokenType)
  | [] => []
  | t :: ts =>
    if starts_statement t.value then t :: ts
    else if t.value = .semicolon then ts
    else claimedSynchronize ts

theorem blen_append (a b : List Char) : blen (a ++ b) = blen a + blen b := by
  simp [blen]

theorem blen_cons (c : Char) (l : List Char) :
    blen (c :: l) = c.utf8Size + blen l := by
  simp [blen]

theorem blen_le_of_suffix {a b : List Char} (h : a <:+ b) : blen a ≤ blen b := by
  rcases h with ⟨pre, rfl⟩
  rw [blen_append]
  omega

theorem current_index_le_blen (input cs : List Char) :
    current_index input cs ≤ blen input := by
  unfold current_index
  omega

theorem current_index_mono {input cs cs' : List Char}
    (h : cs' <:+ cs) (h2 : cs <:+ input) :
    current_index input cs ≤ current_index input cs' := by
  have h1 := blen_le_of_suffix h
  have h3 := blen_le_of_suffix h2
  unfold current_index
  omega

theorem isBoundary_current_index {input cs : List Char} (h : cs <:+ input) :
    isBoundary input (current_index input cs) := by
  rcases h with ⟨pre, rfl⟩
  refine ⟨pre, ⟨cs, rfl⟩, ?_⟩
  rw [current_index, blen_append]
  omega

theorem consume_while_suffix (p : Char → Bool) (cs : List Char) (line : Nat) :
    (consume_while p cs line).2.1 <:+ cs := by
  induction cs generalizing line with
  | nil => exact List.suffix_refl _
  | cons c cs ih =>
    unfold consume_while
    by_cases h : p c
    · simp only [h, if_true]
      exact (ih _).trans (List.suffix_cons c cs)
    · simp only [h, if_false]
      exact List.suffix_refl _

theorem next_char_eq {cs cs' : List Char} {line l' : Nat} {c : Char}
    (h : next_char cs line = some (c, cs', l')) : cs = c :: cs' := by
  cases cs with
  | nil => simp [next_char] at h
  | cons a as =>
    simp only [next_char, Option.some.injEq, Prod.mk.injEq] at h
    obtain ⟨h1, h2, _⟩ := h
    rw [h1, h2]

theorem if_peek_suffix (ch : Char) (m u : TokenType) (cs : List Char) (line : Nat) :
    (if_peek ch m u cs line).2.1 <:+ cs := by
  unfold if_peek
  split
  · cases cs with
    | nil => exact List.suffix_refl _
    | cons a as => simp only [next_char]; exact List.suffix_cons a as
  · exact List.suffix_refl _

theorem scan_number_suffix (cs : List Char) (line : Nat) :
    (scan_number cs line).1 <:+ cs := by
  unfold scan_number
  have h1 := consume_while_suffix (fun c => c.isDigit || c = '.') cs line
  split
  · next cs₁ l₁ heq =>
    have h2 := consume_while_suffix Char.isDigit cs₁ l₁
    rw [heq] at h1
    split
    next cs₂ l₂ heq2 =>
      rw [heq2] at h2
      exact h2.trans h1
  · next _ cs₁ l₁ _ heq =>
    rw [heq] at h1
    exact h1

theorem scan_comment_suffix (cs : List Char) (line : Nat) :
    (scan_comment cs line).1 <:+ cs := by
  unfold scan_comment
  have h1 := consume_while_suffix (fun c => c ≠ '\n') cs line
  split
  next _ cs₁ l₁ heq =>
    rw [heq] at h1
    exact h1

theorem scan_string_suffix (cs : List Char) (line : Nat) :
    (scan_string cs line).1 <:+ cs := by
  unfold scan_string
  have h1 := consume_while_suffix (fun c => c ≠ '"') cs line
  split
  · next _ cs₁ l₁ heq =>
    rw [heq] at h1
    cases cs₁ with
    | nil => simp only [next_char]; exact h1
    | cons a as =>
      simp only [next_char]
      exact (List.suffix_cons a as).trans h1
  · next cs₁ l₁ heq =>
    rw [heq] at h1
    exact h1

theorem identifier_or_keyword_suffix (input : List Char) (start : Nat)
    (cs : List Char) (line : Nat) :
    (identifier_or_keyword input start cs line).2.1 <:+ cs := by
  unfold identifier_or_keyword
  have h1 := consume_while_suffix is_alphanumeric cs line
  split
  next _ cs' l' heq =>
    rw [heq] at h1
    exact h1

theorem classify_suffix (input : List Char) (start : Nat) (ch : Char)
    (cs : List Char) (line : Nat) :
    (classify input start ch cs line).2.1 <:+ cs := by
  unfold classify
  cases scan_act ch with
  | fixed ty => exact List.suffix_refl _
  | twoChar c m u => exact if_peek_suffix _ _ _ _ _
  | slashOrComment =>
    dsimp only
    split
    · exact scan_comment_suffix _ _
    · exact List.suffix_refl _
  | stringLit => exact scan_string_suffix _ _
  | numberLit => exact scan_number_suffix _ _
  | ident => exact identifier_or_keyword_suffix _ _ _ _
  | other => exact List.suffix_refl _

theorem scan_next_spec {s : ScanState} {t : Token} {s' : ScanState}
    (hsuf : s.chars <:+ s.input) (h : scan_next s = some (t, s')) :
    s'.input = s.input ∧ s'.chars <:+ s.chars ∧
    s'.chars.length < s.chars.length ∧
    current_index s.input s.chars ≤ t.start ∧ t.start ≤ t.stop ∧
    t.stop = current_index s.input s'.chars ∧
    t.stop ≤ blen s.input ∧
    isBoundary s.input t.start ∧ isBoundary s.input t.stop := by
  unfold scan_next at h
  rcases hw : consume_while is_ascii_whitespace s.chars s.line with ⟨w, cs₀, l₀⟩
  have hcs₀ : cs₀ <:+ s.chars := by
    have := consume_while_suffix is_ascii_whitespace s.chars s.line
    rw [hw] at this
    exact this
  rw [hw] at h
  dsimp only at h
  cases hnc : next_char cs₀ l₀ with
  | none => rw [hnc] at h; simp at h
  | some x =>
    obtain ⟨ch, cs₁, l₁⟩ := x
    rw [hnc] at h
    dsimp only at h
    have hcons : cs₀ = ch :: cs₁ := next_char_eq hnc
    have hcs₂ := classify_suffix s.input (current_index s.input cs₀) ch cs₁ l₁
    set cs₂ := (classify s.input (current_index s.input cs₀) ch cs₁ l₁).2.1 with hc
    simp only [Option.some.injEq, Prod.mk.injEq] at h
    obtain ⟨ht, hs'⟩ := h
    have hcs₂₀ : cs₂ <:+ cs₀ := by
      rw [hcons]
      exact hcs₂.trans (List.suffix_cons ch cs₁)
    have hcs₂c : cs₂ <:+ s.chars := hcs₂₀.trans hcs₀
    have hcs₀i : cs₀ <:+ s.input := hcs₀.trans hsuf
    have hcs₂i : cs₂ <:+ s.input := hcs₂c.trans hsuf
    have hlen : cs₂.length < s.chars.length := by
      have h1 : cs₂.length ≤ cs₁.length := hcs₂.length_le
      have h2 : cs₀.length ≤ s.chars.length := hcs₀.length_le
      rw [hcons] at h2
      simp at h2
      omega
    subst hs'
    subst ht
    refine ⟨rfl, hcs₂c, hlen, ?_, ?_, rfl, ?_, ?_, ?_⟩
    · exact current_index_mono hcs₀ hsuf
    · exact current_index_mono hcs₂₀ hcs₀i
    · exact current_index_le_blen _ _
    · exact isBoundary_current_index hcs₀i
    · exact isBoundary_current_index hcs₂i

theorem scan_tokensF_good (fuel : Nat) :
    ∀ s : ScanState, s.chars <:+ s.input →
    goodFrom s.input (current_index s.input s.chars) (scan_tokensF fuel s) := by
  induction fuel with
  | zero => intro s _; simp [scan_tokensF, goodFrom]
  | succ fuel ih =>
    intro s hsuf
    unfold scan_tokensF
    cases hn : scan_next s with
    | none => simp [goodFrom]
    | some r =>
      obtain ⟨t, s'⟩ := r
      obtain ⟨hin, hsfx, _, hpos, hord, hstop, hble, hb1, hb2⟩ := scan_next_spec hsuf hn
      refine ⟨hpos, hord, hble, hb1, hb2, ?_⟩
      have hsuf' : s'.chars <:+ s'.input := by
        rw [hin]
        exact hsfx.trans hsuf
      have := ih s' hsuf'
      rw [hin] at this
      rw [hstop]
      exact this

theorem operand_rule_isLoop (lvl : Level) : (operand_rule lvl).isLoop = false := by
  cases lvl <;> rfl

theorem rank_operand_lt (lvl : Level) (left : Expression) :
    rank (operand_rule lvl) + 2 = rank (.binOp lvl) ∧
    rank (.binLoop lvl left) + 1 = rank (.binOp lvl) := by
  cases lvl <;> exact ⟨rfl, rfl⟩

theorem rank_binLoop_eq (lvl : Level) (a b : Expression) :
    rank (.binLoop lvl a) = rank (.binLoop lvl b) := by
  cases lvl <;> rfl

theorem match_one_of_none {α : Type} {ops : List (TokenType × α)} {st st' : PState}
    (h : match_one_of ops st = (none, st')) : st' = st := by
  unfold match_one_of at h
  rcases st with ⟨ts, ep⟩
  cases ts with
  | nil => simpa using h.symm
  | cons t ts =>
    dsimp only at h
    cases hl : lookup_op t.value ops with
    | none => rw [hl] at h; simpa using h.symm
    | some v => rw [hl] at h; simp at h

theorem match_one_of_some {α : Type} {ops : List (TokenType × α)} {st st' : PState} {v : α}
    (h : match_one_of ops st = (some v, st')) :
    st'.tokens.length + 1 = st.tokens.length := by
  unfold match_one_of at h
  rcases st with ⟨ts, ep⟩
  cases ts with
  | nil => simp at h
  | cons t ts =>
    dsimp only at h
    cases hl : lookup_op t.value ops with
    | none => rw [hl] at h; simp at h
    | some w =>
      rw [hl] at h
      simp only [Prod.mk.injEq] at h
      rw [← h.2]
      simp

theorem expect_tokens_le (tt : TokenType) (st : PState) :
    (expect tt st).2.tokens.length ≤ st.tokens.length := by
  unfold expect
  rcases st with ⟨ts, ep⟩
  cases ts with
  | nil => simp
  | cons t ts =>
    dsimp only
    split <;> simp

theorem parseF_spec (input : List Char) : ∀ (fuel : Nat) (r : Rule) (st : PState),
    (∀ out st', parseF input fuel r st = some (out, st') →
      st'.tokens.length ≤ st.tokens.length ∧
      (r.isLoop = false → st.tokens ≠ [] → st'.tokens.length < st.tokens.length)) ∧
    (12 * st.tokens.length + rank r < fuel → parseF input fuel r st ≠ none) := by
  intro fuel
  induction fuel with
  | zero =>
    intro r st
    exact ⟨fun out st' h => by simp [parseF] at h, fun hb => by omega⟩
  | succ fuel ih =>
    intro r st
    cases r with
    | expression =>
      constructor
      · intro out st' h
        simp only [parseF] at h
        obtain ⟨h1, h2⟩ := (ih (.binOp .equality) st).1 out st' h
        exact ⟨h1, fun _ => h2 rfl⟩
      · intro hb
        simp only [parseF]
        refine (ih (.binOp .equality) st).2 ?_
        simp only [rank] at hb ⊢
        omega
    | binOp lvl =>
      constructor
      · intro out st2 h
        simp only [parseF] at h
        cases hop : parseF input fuel (operand_rule lvl) st with
        | none => rw [hop] at h; simp at h
        | some pr =>
          obtain ⟨o₁, st₁⟩ := pr
          rw [hop] at h
          obtain ⟨hle₁, hlt₁⟩ := (ih (operand_rule lvl) st).1 o₁ st₁ hop
          cases o₁ with
          | ok left =>
            dsimp only at h
            obtain ⟨hle₂, _⟩ := (ih (.binLoop lvl left) st₁).1 out st2 h
            refine ⟨hle₂.trans hle₁, fun _ hne => ?_⟩
            exact lt_of_le_of_lt hle₂ (hlt₁ (operand_rule_isLoop lvl) hne)
          | perr e =>
            simp only [Option.some.injEq, Prod.mk.injEq] at h
            obtain ⟨rfl, rfl⟩ := h
            exact ⟨hle₁, fun _ hne => hlt₁ (operand_rule_isLoop lvl) hne⟩
          | panic =>
            simp only [Option.some.injEq, Prod.mk.injEq] at h
            obtain ⟨rfl, rfl⟩ := h
            exact ⟨hle₁, fun _ hne => hlt₁ (operand_rule_isLoop lvl) hne⟩
      · intro hb
        simp only [parseF]
        cases hop : parseF input fuel (operand_rule lvl) st with
        | none =>
          exfalso
          refine (ih (operand_rule lvl) st).2 ?_ hop
          have := (rank_operand_lt lvl (.literal .nil)).1
          omega
        | some pr =>
          obtain ⟨o₁, st₁⟩ := pr
          obtain ⟨hle₁, _⟩ := (ih (operand_rule lvl) st).1 o₁ st₁ hop
          cases o₁ with
          | ok left =>
            dsimp only
            refine (ih (.binLoop lvl left) st₁).2 ?_
            have := (rank_operand_lt lvl left).2
            omega
          | perr e => simp
          | panic => simp
    | binLoop lvl left =>
      constructor
      · intro out st2 h
        simp only [parseF] at h
        rcases hm : match_one_of (level_ops lvl) st with ⟨o, st₁⟩
        rw [hm] at h
        cases o with
        | none =>
          have hst : st₁ = st := match_one_of_none hm
          dsimp only at h
          simp only [Option.some.injEq, Prod.mk.injEq] at h
          obtain ⟨rfl, rfl⟩ := h
          subst hst
          exact ⟨le_refl _, fun hf => by simp [Rule.isLoop] at hf⟩
        | some op =>
          have hlen₁ : st₁.tokens.length + 1 = st.tokens.length := match_one_of_some hm
          dsimp only at h
          cases hop2 : parseF input fuel (operand_rule lvl) st₁ with
          | none => rw [hop2] at h; simp at h
          | some pr =>
            obtain ⟨o₂, st₂⟩ := pr
            rw [hop2] at h
            obtain ⟨hle₂, _⟩ := (ih (operand_rule lvl) st₁).1 o₂ st₂ hop2
            cases o₂ with
            | ok right =>
              dsimp only at h
              obtain ⟨hle₃, _⟩ := (ih (.binLoop lvl (.binary op left right)) st₂).1 out st2 h
              exact ⟨by omega, fun hf => by simp [Rule.isLoop] at hf⟩
            | perr e =>
              simp only [Option.some.injEq, Prod.mk.injEq] at h
              obtain ⟨rfl, rfl⟩ := h
              exact ⟨by omega, fun hf => by simp [Rule.isLoop] at hf⟩
            | panic =>
              simp only [Option.some.injEq, Prod.mk.injEq] at h
              obtain ⟨rfl, rfl⟩ := h
              exact ⟨by omega, fun hf => by simp [Rule.isLoop] at hf⟩
      · intro hb
        simp only [parseF]
        rcases hm : match_one_of (level_ops lvl) st with ⟨o, st₁⟩
        cases o with
        | none => simp
        | some op =>
          have hlen₁ : st₁.tokens.length + 1 = st.tokens.length := match_one_of_some hm
          dsimp only
          cases hop2 : parseF input fuel (operand_rule lvl) st₁ with
          | none =>
            exfalso
            refine (ih (operand_rule lvl) st₁).2 ?_ hop2
            have h1 := (rank_operand_lt lvl left).1
            have h2 := (rank_operand_lt lvl left).2
            omega
          | some pr =>
            obtain ⟨o₂, st₂⟩ := pr
            obtain ⟨hle₂, _⟩ := (ih (operand_rule lvl) st₁).1 o₂ st₂ hop2
            cases o₂ with
            | ok right =>
              dsimp only
              refine (ih (.binLoop lvl (.binary op left right)) st₂).2 ?_
              rw [rank_binLoop_eq lvl (.binary op left right) left]
              omega
            | perr e => simp
            | panic => simp
    | unaryR =>
      constructor
      · intro out st2 h
        simp only [parseF] at h
        rcases hm : match_one_of unary_ops st with ⟨o, st₁⟩
        rw [hm] at h
        cases o with
        | none =>
          dsimp only at h
          obtain ⟨h1, h2⟩ := (ih .primaryR st).1 out st2 h
          exact ⟨h1, fun _ => h2 rfl⟩
        | some op =>
          have hlen₁ : st₁.tokens.length + 1 = st.tokens.length := match_one_of_some hm
          dsimp only at h
          cases hop2 : parseF input fuel .unaryR st₁ with
          | none => rw [hop2] at h; simp at h
          | some pr =>
            obtain ⟨o₂, st₂⟩ := pr
            rw [hop2] at h
            obtain ⟨hle₂, _⟩ := (ih .unaryR st₁).1 o₂ st₂ hop2
            cases o₂ with
            | ok e =>
              simp only [Option.some.injEq, Prod.mk.injEq] at h
              obtain ⟨rfl, rfl⟩ := h
              exact ⟨by omega, fun _ _ => by omega⟩
            | perr e =>
              simp only [Option.some.injEq, Prod.mk.injEq] at h
              obtain ⟨rfl, rfl⟩ := h
              exact ⟨by omega, fun _ _ => by omega⟩
            | panic =>
              simp only [Option.some.injEq, Prod.mk.injEq] at h
              obtain ⟨rfl, rfl⟩ := h
              exact ⟨by omega, fun _ _ => by omega⟩
      · intro hb
        simp only [parseF]
        rcases hm : match_one_of unary_ops st with ⟨o, st₁⟩
        cases o with
        | none =>
          dsimp only
          refine (ih .primaryR st).2 ?_
          simp only [rank] at hb ⊢
          omega
        | some op =>
          have hlen₁ : st₁.tokens.length + 1 = st.tokens.length := match_one_of_some hm
          dsimp only
          cases hop2 : parseF input fuel .unaryR st₁ with
          | none =>
            exfalso
            refine (ih .unaryR st₁).2 ?_ hop2
            simp only [rank] at hb ⊢
            omega
          | some pr =>
            obtain ⟨o₂, st₂⟩ := pr
            cases o₂ <;> simp
    | primaryR =>
      constructor
      · intro out st2 h
        simp only [parseF] at h
        rcases st with ⟨ts, ep⟩
        cases ts with
        | nil =>
          simp only [next_token] at h
          simp only [Option.some.injEq, Prod.mk.injEq] at h
          obtain ⟨rfl, rfl⟩ := h
          exact ⟨le_refl _, fun _ hne => absurd rfl hne⟩
        | cons t ts =>
          simp only [next_token] at h
          have hgoal : st2.tokens.length ≤ ts.length := by
            cases hact : primary_act t.value with
            | lit v =>
              rw [hact] at h
              simp only [Option.some.injEq, Prod.mk.injEq] at h
              obtain ⟨rfl, rfl⟩ := h
              exact le_refl _
            | num =>
              rw [hact] at h
              cases hpn : parse_number input t.span with
              | none =>
                rw [hpn] at h
                simp only [Option.some.injEq, Prod.mk.injEq] at h
                obtain ⟨rfl, rfl⟩ := h
                exact le_refl _
              | some res =>
                rw [hpn] at h
                cases res with
                | ok n =>
                  simp only [Option.some.injEq, Prod.mk.injEq] at h
                  obtain ⟨rfl, rfl⟩ := h
                  exact le_refl _
                | error e =>
                  simp only [Option.some.injEq, Prod.mk.injEq] at h
                  obtain ⟨rfl, rfl⟩ := h
                  exact le_refl _
            | str =>
              rw [hact] at h
              cases hps : parse_string input t.span with
              | none =>
                rw [hps] at h
                simp only [Option.some.injEq, Prod.mk.injEq] at h
                obtain ⟨rfl, rfl⟩ := h
                exact le_refl _
              | some res =>
                rw [hps] at h
                cases res with
                | ok sv =>
                  simp only [Option.some.injEq, Prod.mk.injEq] at h
                  obtain ⟨rfl, rfl⟩ := h
                  exact le_refl _
                | error e =>
                  simp only [Option.some.injEq, Prod.mk.injEq] at h
                  obtain ⟨rfl, rfl⟩ := h
                  exact le_refl _
            | paren =>
              rw [hact] at h
              cases hop2 : parseF input fuel .expression ⟨ts, t.span.stop⟩ with
              | none => rw [hop2] at h; simp at h
              | some pr =>
                obtain ⟨o₂, st₂⟩ := pr
                rw [hop2] at h
                obtain ⟨hle₂, _⟩ := (ih .expression ⟨ts, t.span.stop⟩).1 o₂ st₂ hop2
                cases o₂ with
                | ok e =>
                  dsimp only at h
                  rcases hex : expect .rparen st₂ with ⟨exr, st₃⟩
                  rw [hex] at h
                  have hle₃ : st₃.tokens.length ≤ st₂.tokens.length := by
                    have := expect_tokens_le .rparen st₂
                    rw [hex] at this
                    exact this
                  cases exr with
                  | ok u =>
                    simp only [Option.some.injEq, Prod.mk.injEq] at h
                    obtain ⟨rfl, rfl⟩ := h
                    exact hle₃.trans hle₂
                  | error pe =>
                    simp only [Option.some.injEq, Prod.mk.injEq] at h
                    obtain ⟨rfl, rfl⟩ := h
                    exact hle₃.trans hle₂
                | perr e =>
                  simp only [Option.some.injEq, Prod.mk.injEq] at h
                  obtain ⟨rfl, rfl⟩ := h
                  exact hle₂
                | panic =>
                  simp only [Option.some.injEq, Prod.mk.injEq] at h
                  obtain ⟨rfl, rfl⟩ := h
                  exact hle₂
            | noPrimary =>
              rw [hact] at h
              simp only [Option.some.injEq, Prod.mk.injEq] at h
              obtain ⟨rfl, rfl⟩ := h
              exact le_refl _
          refine ⟨by simpa using Nat.le_succ_of_le hgoal, fun _ _ => ?_⟩
          simpa using Nat.lt_succ_of_le hgoal
      · intro hb
        simp only [parseF]
        rcases st with ⟨ts, ep⟩
        cases ts with
        | nil => simp [next_token]
        | cons t ts =>
          simp only [next_token]
          cases hact : primary_act t.value with
          | lit v => simp
          | num =>
            cases parse_number input t.span with
            | none => simp
            | some res => cases res <;> simp
          | str =>
            cases parse_string input t.span with
            | none => simp
            | some res => cases res <;> simp
          | paren =>
            cases hop2 : parseF input fuel .expression ⟨ts, t.span.stop⟩ with
            | none =>
              exfalso
              refine (ih .expression ⟨ts, t.span.stop⟩).2 ?_ hop2
              simp only [rank, List.length_cons] at hb ⊢
              omega
            | some pr =>
              obtain ⟨o₂, st₂⟩ := pr
              cases o₂ with
              | ok e =>
                dsimp only
                rcases hex : expect .rparen st₂ with ⟨exr, st₃⟩
                cases exr <;> simp
              | perr e => simp
              | panic => simp
          | noPrimary => simp

theorem syncAux_tokens_le (ts : List (Spanned TokenType)) :
    ∀ e, (syncAux ts e).tokens.length ≤ ts.length := by
  induction ts with
  | nil => intro e; simp [syncAux]
  | cons t ts ih =>
    intro e
    unfold syncAux
    split
    · simp
    · cases ts with
      | nil =>
        have := ih t.span.stop
        simpa using Nat.le_succ_of_le this
      | cons t' ts' =>
        dsimp only
        split
        · simp
        · have := ih t.span.stop
          simpa using Nat.le_succ_of_le this

theorem parse_suff (input : List Char) (st : PState) :
    parseF input (parse_fuel st) .expression st ≠ none := by
  refine (parseF_spec input (parse_fuel st) .expression st).2 ?_
  simp only [parse_fuel, rank]
  omega

theorem parser_next_none_iff (input : List Char) (st : PState) :
    parser_next input st = none ↔ st.tokens = [] := by
  rcases st with ⟨ts, ep⟩
  cases ts with
  | nil => simp [parser_next]
  | cons t ts =>
    simp only [parser_next]
    cases hp : parseF input (parse_fuel ⟨t :: ts, ep⟩) .expression ⟨t :: ts, ep⟩ with
    | none => simp
    | some pr =>
      obtain ⟨o, st'⟩ := pr
      cases o <;> simp

theorem parser_next_consumes {input : List Char} {st st' : PState}
    {r : Spanned POut} (h : parser_next input st = some (r, st')) :
    st'.tokens.length < st.tokens.length := by
  rcases st with ⟨ts, ep⟩
  cases ts with
  | nil => simp [parser_next] at h
  | cons t ts =>
    simp only [parser_next] at h
    cases hp : parseF input (parse_fuel ⟨t :: ts, ep⟩) .expression ⟨t :: ts, ep⟩ with
    | none =>
      rw [hp] at h
      simp only [Option.some.injEq, Prod.mk.injEq] at h
      obtain ⟨-, rfl⟩ := h
      simp
    | some pr =>
      obtain ⟨o, st₁⟩ := pr
      rw [hp] at h
      have hlt : st₁.tokens.length < (t :: ts).length :=
        ((parseF_spec input _ .expression _).1 o st₁ hp).2 rfl (by simp)
      cases o with
      | ok e =>
        simp only [Option.some.injEq, Prod.mk.injEq] at h
        obtain ⟨-, rfl⟩ := h
        exact hlt
      | perr e =>
        simp only [Option.some.injEq, Prod.mk.injEq] at h
        obtain ⟨-, rfl⟩ := h
        have := syncAux_tokens_le st₁.tokens st₁.endPos
        simp only [synchronize]
        omega
      | panic =>
        simp only [Option.some.injEq, Prod.mk.injEq] at h
        obtain ⟨-, rfl⟩ := h
        exact hlt

theorem parser_results_length (input : List Char) :
    ∀ (fuel : Nat) (st : PState),
    (parser_results input fuel st).length ≤ st.tokens.length := by
  intro fuel
  induction fuel with
  | zero => intro st; simp [parser_results]
  | succ fuel ih =>
    intro st
    unfold parser_results
    cases hn : parser_next input st with
    | none => simp
    | some pr =>
      obtain ⟨r, st'⟩ := pr
      dsimp only
      have hlt := parser_next_consumes hn
      have hne : st.tokens ≠ [] := by
        intro hc
        rw [(parser_next_none_iff input st).2 hc] at hn
        exact Option.noConfusion hn
      cases hv : r.value with
      | panic =>
        dsimp only
        have : 1 ≤ st.tokens.length := by
          cases hc : st.tokens with
          | nil => exact absurd hc hne
          | cons a as => simp
        simpa using this
      | ok e =>
        dsimp only
        have := ih st'
        simp only [List.length_cons]
        omega
      | perr e =>
        dsimp only
        have := ih st'
        simp only [List.length_cons]
        omega

theorem dropB_append (pre rest : List Char) : dropB (pre ++ rest) (blen pre) = rest := by
  induction pre with
  | nil => simp [dropB, blen]
  | cons c pre ih =>
    have hpos := Char.utf8Size_pos c
    rw [blen_cons]
    have hsz : c.utf8Size + blen pre = (c.utf8Size + blen pre - 1) + 1 := by omega
    rw [List.cons_append]
    rw [hsz]
    unfold dropB
    have hle : c.utf8Size ≤ c.utf8Size + blen pre - 1 + 1 := by omega
    rw [if_pos hle]
    have : c.utf8Size + blen pre - 1 + 1 - c.utf8Size = blen pre := by omega
    rw [this]
    exact ih

theorem takeB_append (mid suf : List Char) : takeB (mid ++ suf) (blen mid) = mid := by
  induction mid with
  | nil => simp [takeB, blen]
  | cons c mid ih =>
    have hpos := Char.utf8Size_pos c
    rw [blen_cons]
    have hsz : c.utf8Size + blen mid = (c.utf8Size + blen mid - 1) + 1 := by omega
    rw [List.cons_append, hsz]
    unfold takeB
    have hle : c.utf8Size ≤ c.utf8Size + blen mid - 1 + 1 := by omega
    rw [if_pos hle]
    have : c.utf8Size + blen mid - 1 + 1 - c.utf8Size = blen mid := by omega
    rw [this, ih]

theorem alignedB_append (pre suf : List Char) : alignedB (pre ++ suf) (blen pre) = true := by
  induction pre with
  | nil => simp [alignedB, blen]
  | cons c pre ih =>
    have hpos := Char.utf8Size_pos c
    rw [blen_cons]
    have hsz : c.utf8Size + blen pre = (c.utf8Size + blen pre - 1) + 1 := by omega
    rw [List.cons_append, hsz]
    unfold alignedB
    have hle : c.utf8Size ≤ c.utf8Size + blen pre - 1 + 1 := by omega
    rw [if_pos hle]
    have : c.utf8Size + blen pre - 1 + 1 - c.utf8Size = blen pre := by omega
    rw [this]
    exact ih

theorem sliceB_decomp (pre mid suf : List Char) :
    sliceB (pre ++ mid ++ suf) (blen pre) (blen pre + blen mid) = mid := by
  unfold sliceB
  rw [List.append_assoc, dropB_append]
  have : blen pre + blen mid - blen pre = blen mid := by omega
  rw [this, takeB_append]

theorem sliceBytes?_decomp (pre mid suf : List Char) :
    sliceBytes? (pre ++ mid ++ suf) (blen pre) ((blen pre : Int) + blen mid) = some mid := by
  unfold sliceBytes?
  have h1 : alignedB (pre ++ mid ++ suf) ((blen pre : Int)).toNat = true := by
    rw [Int.toNat_ofNat, List.append_assoc]
    exact alignedB_append pre (mid ++ suf)
  have h2 : alignedB (pre ++ mid ++ suf) (((blen pre : Int) + blen mid)).toNat = true := by
    have : ((blen pre : Int) + blen mid).toNat = blen (pre ++ mid) := by
      rw [blen_append]; omega
    rw [this]
    exact alignedB_append (pre ++ mid) suf
  rw [if_pos]
  · congr 1
    have ha : ((blen pre : Int)).toNat = blen pre := Int.toNat_ofNat _
    have hb : (((blen pre : Int) + blen mid)).toNat = blen pre + blen mid := by omega
    rw [ha, hb]
    exact sliceB_decomp pre mid suf
  · exact ⟨by positivity, by omega, h1, h2⟩

theorem consume_while_all (p : Char → Bool) : ∀ cs : List Char,
    (∀ c ∈ cs, p c = true) →
    ∀ line, (consume_while p cs line).1 = none ∧ (consume_while p cs line).2.1 = [] := by
  intro cs
  induction cs with
  | nil => intro _ line; simp [consume_while]
  | cons c cs ih =>
    intro h line
    have hc : p c = true := h c (by simp)
    unfold consume_while
    rw [if_pos hc]
    exact ih (fun x hx => h x (by simp [hx])) _

theorem blen_singleton_quote : blen ['"'] = 1 := by decide

theorem scan_next_unterminated_string (s : ScanState) (rest : List Char)
    (hchars : s.chars = '"' :: rest) (hq : '"' ∉ rest) :
    ∃ l₂, scan_next s
      = some (⟨.string, s.line, current_index s.input s.chars, blen s.input⟩,
          ⟨s.input, [], l₂⟩) := by
  rcases hcw : consume_while (fun c => c ≠ '"') rest s.line with ⟨stopc, cs₁, l₁⟩
  have hall := consume_while_all (fun c => decide (c ≠ '"')) rest
    (fun c hc => by
      simp only [decide_eq_true_eq]
      intro he
      subst he
      exact hq hc) s.line
  rw [hcw] at hall
  obtain ⟨hstop, hcs₁⟩ := hall
  dsimp only at hstop hcs₁
  subst hstop hcs₁
  refine ⟨l₁, ?_⟩
  unfold scan_next
  rw [hchars]
  have hw : consume_while is_ascii_whitespace ('"' :: rest) s.line
      = (some '"', '"' :: rest, s.line) := by
    unfold consume_while
    rw [if_neg (by decide)]
  rw [hw]
  dsimp only [next_char]
  rw [if_neg (by decide)]
  have hact : scan_act '"' = .stringLit := by decide
  unfold classify
  rw [hact]
  dsimp only
  have hss : scan_string rest s.line = ([], l₁) := by
    unfold scan_string
    rw [hcw]
  rw [hss]
  simp [current_index, blen]

theorem parse_string_unterminated (pre mid suf : List Char)
    (h : mid.getLast? ≠ some '"') :
    parse_string (pre ++ mid ++ suf) ⟨(blen pre : Int), (blen pre : Int) + blen mid⟩
      = some (.error .malformedString) := by
  unfold parse_string
  dsimp only
  rw [sliceBytes?_decomp pre mid suf]
  dsimp only
  rw [if_pos h]

theorem parse_string_proper (pre mid suf : List Char) :
    parse_string (pre ++ ('"' :: (mid ++ ['"'])) ++ suf)
      ⟨(blen pre : Int), (blen pre : Int) + blen mid + 2⟩ = some (.ok mid) := by
  have hqs : ('"' : Char).utf8Size = 1 := by decide
  have hmid : blen ('"' :: (mid ++ ['"'])) = blen mid + 2 := by
    rw [blen_cons, blen_append, blen_singleton_quote, hqs]
    omega
  unfold parse_string
  dsimp only
  have houter : sliceBytes? (pre ++ ('"' :: (mid ++ ['"'])) ++ suf)
      ((blen pre : Int)) ((blen pre : Int) + blen mid + 2)
      = some ('"' :: (mid ++ ['"'])) := by
    have hd := sliceBytes?_decomp pre ('"' :: (mid ++ ['"'])) suf
    rw [hmid] at hd
    have : ((blen pre : Int)) + ((blen mid + 2 : Nat) : Int)
        = (blen pre : Int) + blen mid + 2 := by push_cast; ring
    rw [this] at hd
    exact hd
  rw [houter]
  have hlast : ('"' :: (mid ++ ['"'])).getLast? = some '"' := by
    rw [← List.cons_append, List.getLast?_concat]
  dsimp only
  rw [if_neg (by rw [hlast]; simp)]
  have hinner : sliceBytes? (pre ++ ('"' :: (mid ++ ['"'])) ++ suf)
      ((blen pre : Int) + 1) ((blen pre : Int) + blen mid + 2 - 1) = some mid := by
    have hd := sliceBytes?_decomp (pre ++ ['"']) mid (['"'] ++ suf)
    have hsh : (pre ++ ['"']) ++ mid ++ (['"'] ++ suf)
        = pre ++ ('"' :: (mid ++ ['"'])) ++ suf := by
      simp [List.append_assoc]
    rw [hsh] at hd
    have hpre1 : ((blen (pre ++ ['"']) : Nat) : Int) = (blen pre : Int) + 1 := by
      rw [blen_append, blen_singleton_quote]
      push_cast
      ring
    rw [hpre1] at hd
    have : ((blen pre : Int) + 1) + (blen mid : Int)
        = (blen pre : Int) + blen mid + 2 - 1 := by ring
    rw [this] at hd
    exact hd
  rw [hinner]

theorem syncAux_eq_claimed (ts : List (Spanned TokenType)) :
    ∀ e : Int, (∀ t ∈ ts.head?, starts_statement t.value = false) →
    (syncAux ts e).tokens = claimedSynchronize ts := by
  induction ts with
  | nil => intro e _; simp [syncAux, claimedSynchronize]
  | cons t ts ih =>
    intro e h
    have hns : starts_statement t.value = false := h t (by simp)
    unfold syncAux claimedSynchronize
    rw [hns]
    simp only [Bool.false_eq_true, if_false]
    by_cases hsemi : t.value = TokenType.semicolon
    · rw [if_pos hsemi, if_pos hsemi]
    · rw [if_neg hsemi, if_neg hsemi]
      cases ts with
      | nil => simp [syncAux, claimedSynchronize]
      | cons t' ts' =>
        dsimp only
        by_cases hst : starts_statement t'.value = true
        · rw [if_pos hst]
          unfold claimedSynchronize
          rw [if_pos hst]
        · rw [if_neg hst]
          refine ih t.span.stop ?_
          intro x hx
          simp only [List.head?_cons, Option.mem_def, Option.some.injEq] at hx
          subst hx
          simpa using hst

/-- C1: For every pair of evaluated operand values, Binary Add dispatches on
the left operand's runtime type: two Strings concatenate; two Numbers add;
a String left with a non-String right yields TypeError{expected:{String},
actual: right}; a Number left with a non-Number right yields
TypeError{expected:{Number}, actual: right}; a left that is neither String
nor Number yields TypeError{expected:{Number, String}, actual: left}. -/
theorem add_dispatches_on_left_operand_type :
    (∀ s t : List Char,
      eval (.binary .add (.literal (.string s)) (.literal (.string t)))
        = .ok (.string (s ++ t))) ∧
    (∀ x y : Number,
      eval (.binary .add (.literal (.number x)) (.literal (.number y)))
        = .ok (.number (x.add y))) ∧
    (∀ (s : List Char) (r : Value), r.ty ≠ .string →
      eval (.binary .add (.literal (.string s)) (.literal r))
        = .error (.typeError ⟨[.string], r⟩)) ∧
    (∀ (x : Number) (r : Value), r.ty ≠ .number →
      eval (.binary .add (.literal (.number x)) (.literal r))
        = .error (.typeError ⟨[.number], r⟩)) ∧
    (∀ l r : Value, l.ty ≠ .string → l.ty ≠ .number →
      eval (.binary .add (.literal l) (.literal r))
        = .error (.typeError ⟨[.number, .string], l⟩)) := by
  refine ⟨fun s t => rfl, fun x y => rfl, ?_, ?_, ?_⟩
  · intro s r hr
    cases r with
    | string t => exact absurd rfl hr
    | number n => rfl
    | boolean b => rfl
    | nil => rfl
  · intro x r hr
    cases r with
    | number n => exact absurd rfl hr
    | string t => rfl
    | boolean b => rfl
    | nil => rfl
  · intro l r h1 h2
    cases l with
    | string t => exact absurd rfl h1
    | number n => exact absurd rfl h2
    | boolean b => cases r <;> rfl
    | nil => cases r <;> rfl

/-- Witness for C1 at the spec's own examples: `"a" + "b"` concatenates,
`"a" + 1` fails expecting String, `1 + true` fails expecting Number, and
`nil + 1` fails expecting Number or String. -/
theorem add_dispatches_on_left_operand_type_witness :
    eval (.binary .add (.literal (.string "a".toList)) (.literal (.string "b".toList)))
      = .ok (.string "ab".toList) ∧
    eval (.binary .add (.literal (.string "a".toList)) (.literal (.number 1)))
      = .error (.typeError ⟨[.string], .number 1⟩) ∧
    eval (.binary .add (.literal (.number 1)) (.literal (.boolean true)))
      = .error (.typeError ⟨[.number], .boolean true⟩) ∧
    eval (.binary .add (.literal .nil) (.literal (.number 1)))
      = .error (.typeError ⟨[.number, .string], Value.nil⟩) := by
  refine ⟨?_, ?_, ?_, ?_⟩
  · exact (add_dispatches_on_left_operand_type.1 "a".toList "b".toList).trans (by decide)
  · exact add_dispatches_on_left_operand_type.2.2.1 "a".toList (.number 1) (by decide)
  · exact add_dispatches_on_left_operand_type.2.2.2.1 1 (.boolean true) (by decide)
  · exact add_dispatches_on_left_operand_type.2.2.2.2 .nil (.number 1) (by decide) (by decide)

/-- C2 (code bug): the pipeline is not total.  On the one-character source
`"` the lexer emits a String token with span `[0, 1)`; the parser's
string-literal conversion then sees a slice that *does* end with a quote
(the opening one) and slices `input[1..0]`, an inverted range — a panic,
modelled as `none` — so the whole run aborts instead of reporting a
ParseError, contradicting the claim that every malformed input is reported
as an error value. -/
theorem pipeline_panics_on_lone_quote_source :
    tokensOf ['"'] = [⟨.string, ⟨0, 1⟩⟩] ∧
    parse_string ['"'] ⟨0, 1⟩ = none ∧
    parser_run ['"'] = [⟨.panic, ⟨0, 1⟩⟩] := by decide

/-- C3: binary operators are left-associative and follow the precedence
cascade: `2 + 3 * 4` parses as `2 + (3 * 4)` and evaluates to Number 14
(not 20), and `2 - 3 - 4` parses as `(2 - 3) - 4` and evaluates to
Number -5. -/
theorem precedence_and_left_associativity_examples :
    parser_run "2 + 3 * 4".toList =
      [⟨.ok (.binary .add (.literal (.number 2))
          (.binary .mul (.literal (.number 3)) (.literal (.number 4)))), ⟨0, 9⟩⟩] ∧
    eval (.binary .add (.literal (.number 2))
        (.binary .mul (.literal (.number 3)) (.literal (.number 4))))
      = .ok (.number ⟨14, 1⟩) ∧
    parser_run "2 - 3 - 4".toList =
      [⟨.ok (.binary .sub
          (.binary .sub (.literal (.number 2)) (.literal (.number 3)))
          (.literal (.number 4))), ⟨0, 9⟩⟩] ∧
    eval (.binary .sub
        (.binary .sub (.literal (.number 2)) (.literal (.number 3)))
        (.literal (.number 4)))
      = .ok (.number ⟨-5, 1⟩) := by decide

/-- C4 counterexample: the source consisting of one `"` is an unterminated
string literal (its closing quote is missing at end of input); the lexer
emits the String token with span `[0, 1)` as the claim says, but the
conversion neither yields MalformedString nor a between-quotes substring:
the span's one-character text ends with a quote, so `parse_string` slices
the inverted range `[1, 0)` and aborts (`none` models the panic). -/
theorem lone_quote_breaks_string_conversion :
    scan_tokens ['"'] = [⟨.string, 1, 0, 1⟩] ∧
    parse_string ['"'] ⟨0, 1⟩ = none := by decide

/-- C4 (amended): (1) for a `"` followed by no further quote up to end of
input, the lexer still emits a String token whose span runs to the end of
the input; (2) if a String span's text does not end with a closing quote,
conversion yields MalformedString; (3) if the span's text is a quote, at
least one character, and a closing quote, the literal value is exactly the
text strictly between the two quotes, with no escape processing.  (The
lone-quote token of the counterexample, whose opening quote is its own
"closing" quote, instead aborts on an inverted slice.) -/
theorem string_literal_lexing_and_conversion_amended :
    (∀ (s : ScanState) (rest : List Char),
      s.chars = '"' :: rest → '"' ∉ rest →
      ∃ l₂, scan_next s
        = some (⟨.string, s.line, current_index s.input s.chars, blen s.input⟩,
            ⟨s.input, [], l₂⟩)) ∧
    (∀ pre mid suf : List Char, mid.getLast? ≠ some '"' →
      parse_string (pre ++ mid ++ suf) ⟨(blen pre : Int), (blen pre : Int) + blen mid⟩
        = some (.error .malformedString)) ∧
    (∀ pre mid suf : List Char,
      parse_string (pre ++ ('"' :: (mid ++ ['"'])) ++ suf)
        ⟨(blen pre : Int), (blen pre : Int) + blen mid + 2⟩ = some (.ok mid)) :=
  ⟨scan_next_unterminated_string, parse_string_unterminated, parse_string_proper⟩

/-- Witness for the amended C4: scanning `"ab` from the start emits a String
token spanning the whole input; converting the span `[1, 5)` of `x"ab`
(text `"ab`, ending with `b`) yields MalformedString; converting the span
`[0, 4)` of `"ab"` yields the literal `ab`. -/
theorem string_literal_lexing_and_conversion_witness :
    (∃ l₂, scan_next ⟨"\"ab".toList, "\"ab".toList, 1⟩
      = some (⟨.string, 1, 0, 3⟩, ⟨"\"ab".toList, [], l₂⟩)) ∧
    parse_string "x\"ab".toList ⟨1, 4⟩ = some (.error .malformedString) ∧
    parse_string "\"ab\"".toList ⟨0, 4⟩ = some (.ok "ab".toList) := by
  refine ⟨?_, ?_, ?_⟩
  · obtain ⟨l₂, h⟩ := string_literal_lexing_and_conversion_amended.1
      ⟨"\"ab".toList, "\"ab".toList, 1⟩ ['a', 'b'] (by decide) (by decide)
    exact ⟨l₂, h⟩
  · exact string_literal_lexing_and_conversion_amended.2.1
      ['x'] ['"', 'a', 'b'] [] (by decide)
  · exact string_literal_lexing_and_conversion_amended.2.2 [] ['a', 'b'] []

/-- C5 counterexample: on the token sequence `[class]` the claim's scan
stops at the statement keyword without consuming it, but the parser's
synchronization discards it: the keyword check is only applied to the
token *after* a discarded one.  The state is reachable: for the source
`@ class` the failed expression attempt consumes the Unknown token and
synchronization then starts at the `class` token, which it swallows — the
driver sees a single error result spanning both tokens, where the claim's
description would leave `class` for a second attempt. -/
theorem synchronize_consumes_leading_keyword_counterexample :
    claimedSynchronize [⟨.kwClass, ⟨0, 5⟩⟩] = [⟨.kwClass, ⟨0, 5⟩⟩] ∧
    (synchronize ⟨[⟨.kwClass, ⟨0, 5⟩⟩], 0⟩).tokens = [] ∧
    parser_run "@ class".toList = [⟨.perr .expectedPrimary, ⟨0, 7⟩⟩] := by decide

/-- C5 (amended): synchronization behaves exactly as the claim describes —
discard tokens one at a time, stopping after consuming a Semicolon or upon
finding (without consuming) a statement-starting keyword — whenever the
first token at entry is not itself a statement-starting keyword; a keyword
in the very first position is discarded (the keyword check applies only
from the second position onward). -/
theorem synchronize_matches_claim_unless_keyword_first :
    ∀ st : PState,
      (∀ t ∈ st.tokens.head?, starts_statement t.value = false) →
      (synchronize st).tokens = claimedSynchronize st.tokens := by
  intro st h
  exact syncAux_eq_claimed st.tokens st.endPos h

/-- Witness for the amended C5: on `[number, semicolon, number]` the code's
synchronization and the claim's description agree, both consuming up to
and including the semicolon. -/
theorem synchronize_matches_claim_witness :
    (synchronize ⟨[⟨.number, ⟨0, 1⟩⟩, ⟨.semicolon, ⟨1, 2⟩⟩, ⟨.number, ⟨2, 3⟩⟩], 0⟩).tokens
      = claimedSynchronize [⟨.number, ⟨0, 1⟩⟩, ⟨.semicolon, ⟨1, 2⟩⟩, ⟨.number, ⟨2, 3⟩⟩] ∧
    claimedSynchronize [⟨.number, ⟨0, 1⟩⟩, ⟨.semicolon, ⟨1, 2⟩⟩, ⟨.number, ⟨2, 3⟩⟩]
      = [⟨.number, ⟨2, 3⟩⟩] :=
  ⟨synchronize_matches_claim_unless_keyword_first _ (by decide), by decide⟩

/-- C6: a Binary node evaluates its left subexpression completely before the
right one and both before any type checking: a left-hand RuntimeError is
the node's result, and when the left yields a value (even one ill-typed
for the operator) and the right fails, the right's error is the result —
never a TypeError for the left operand. -/
theorem binary_left_then_right_short_circuit :
    ∀ (op : BinaryOperator) (l r : Expression) (err : RuntimeError),
      (eval l = .error err → eval (.binary op l r) = .error err) ∧
      (∀ v : Value, eval l = .ok v → eval r = .error err →
        eval (.binary op l r) = .error err) := by
  intro op l r err
  constructor
  · intro h
    simp [eval, h]
  · intro v hv hr
    simp [eval, hv, hr]

/-- Witness for C6: with `true + nil` as the failing subexpression, its
error propagates from the left slot untouched, and from the right slot
even though the left operand `true` is itself ill-typed for Add. -/
theorem binary_left_then_right_short_circuit_witness :
    eval (.binary .add
        (.binary .add (.literal (.boolean true)) (.literal .nil))
        (.literal (.number 1)))
      = .error (.typeError ⟨[.number, .string], .boolean true⟩) ∧
    eval (.binary .add
        (.literal (.boolean true))
        (.binary .add (.literal (.boolean true)) (.literal .nil)))
      = .error (.typeError ⟨[.number, .string], .boolean true⟩) := by
  constructor
  · exact (binary_left_then_right_short_circuit .add
      (.binary .add (.literal (.boolean true)) (.literal .nil))
      (.literal (.number 1))
      (.typeError ⟨[.number, .string], .boolean true⟩)).1 (by decide)
  · exact (binary_left_then_right_short_circuit .add
      (.literal (.boolean true))
      (.binary .add (.literal (.boolean true)) (.literal .nil))
      (.typeError ⟨[.number, .string], .boolean true⟩)).2
      (.boolean true) (by decide) (by decide)

/-- C7 (code bug): the first consume-while pass of `Scanner::number`
accepts dots as well as digits, so the scan never stops at a dot (the
second, digits-only pass is dead code) and a second `.` does *not* begin a
new token: `1.2.3` lexes as the single Number token `[0, 5)`, which the
numeric conversion then rejects as MalformedNumber. -/
theorem number_token_consumes_all_dots :
    scan_tokens "1.2.3".toList = [⟨.number, 1, 0, 5⟩] ∧
    parse_number "1.2.3".toList ⟨0, 5⟩ = some (.error .malformedNumber) := by decide

/-- C8 (code bug): diagnostics are not total at the no-trailing-newline
boundary.  For the one-character source `@` the parser reports
ExpectedPrimary with span `[0, 1)`, but `println_span` computes
`high + 1 = 1` and indexes `lines[1]` in the one-element newline table
`[-1]` — out of bounds (`none` models the panic) — instead of printing the
covered line with an aligned caret. -/
theorem println_span_out_of_bounds_without_trailing_newline :
    parser_run ['@'] = [⟨.perr .expectedPrimary, ⟨0, 1⟩⟩] ∧
    count_lines ['@'] = [-1] ∧
    println_span? ['@'] [-1] ⟨0, 1⟩ = none := by decide

/-- C9: every token the lexer emits has a span `[start, stop)` with
`0 ≤ start ≤ stop ≤ byte-length input`, both endpoints on UTF-8 character
boundaries, and successive tokens have non-decreasing, non-overlapping
spans (each token starts at or after the previous token's end). -/
theorem lexer_token_spans_wellformed :
    ∀ input : List Char, goodFrom input 0 (scan_tokens input) := by
  intro input
  unfold scan_tokens
  have h := scan_tokensF_good (input.length + 1) ⟨input, input, 1⟩ (List.suffix_refl _)
  simpa [current_index] using h

/-- C10: the parser iterator is productive and terminating: it returns
`none` exactly when the token stream is exhausted before the attempt
starts; every returned result consumed at least one token; the fuel handed
to the recursive descent is always sufficient (the parse combinators
terminate); and the iterator therefore yields at most as many results as
there are tokens. -/
theorem parser_iterator_productive_and_terminating :
    ∀ (input : List Char) (st : PState),
      (parser_next input st = none ↔ st.tokens = []) ∧
      (∀ (r : Spanned POut) (st' : PState),
        parser_next input st = some (r, st') →
          st'.tokens.length < st.tokens.length) ∧
      parseF input (parse_fuel st) .expression st ≠ none ∧
      (parser_results input (st.tokens.length + 1) st).length ≤ st.tokens.length :=
  fun input st =>
    ⟨parser_next_none_iff input st, fun _ _ h => parser_next_consumes h,
      parse_suff input st, parser_results_length input _ st⟩

/-- Witness for C10 on the one-token stream of source `1`: the iterator
returns a result and the new state it returns has consumed the token;
on the empty stream the iterator returns `none`. -/
theorem parser_iterator_witness :
    parser_next "1".toList ⟨[⟨.number, ⟨0, 1⟩⟩], 0⟩
      = some (⟨.ok (.literal (.number 1)), ⟨0, 1⟩⟩, ⟨[], 1⟩) ∧
    (⟨[], 1⟩ : PState).tokens.length < 1 ∧
    parser_next "1".toList ⟨[], 0⟩ = none := by
  refine ⟨by decide, ?_, ?_⟩
  · exact (parser_iterator_productive_and_terminating "1".toList
      ⟨[⟨.number, ⟨0, 1⟩⟩], 0⟩).2.1 ⟨.ok (.literal (.number 1)), ⟨0, 1⟩⟩ ⟨[], 1⟩ (by decide)
  · exact (parser_iterator_productive_and_terminating "1".toList ⟨[], 0⟩).1.2 rfl

theorem scan_tokensF_fuel_irrelevant :
    ∀ (fuel₁ : Nat) (s : ScanState), s.chars <:+ s.input →
    ∀ fuel₂ : Nat, s.chars.length < fuel₁ → s.chars.length < fuel₂ →
    scan_tokensF fuel₁ s = scan_tokensF fuel₂ s := by
  intro fuel₁
  induction fuel₁ with
  | zero => intro s _ fuel₂ h1 _; omega
  | succ f ih =>
    intro s hsuf fuel₂ h1 h2
    cases fuel₂ with
    | zero => omega
    | succ f₂ =>
      unfold scan_tokensF
      cases hn : scan_next s with
      | none => rfl
      | some r =>
        obtain ⟨t, s'⟩ := r
        dsimp only
        obtain ⟨hin, hsfx, hlen, -, -, -, -, -, -⟩ := scan_next_spec hsuf hn
        have hsuf' : s'.chars <:+ s'.input := by
          rw [hin]
          exact hsfx.trans hsuf
        rw [ih s' hsuf' f₂ (by omega) (by omega)]

theorem parser_results_fuel_irrelevant (input : List Char) :
    ∀ (fuel₁ : Nat) (st : PState), ∀ fuel₂ : Nat,
    st.tokens.length < fuel₁ → st.tokens.length < fuel₂ →
    parser_results input fuel₁ st = parser_results input fuel₂ st := by
  intro fuel₁
  induction fuel₁ with
  | zero => intro st fuel₂ h1 _; omega
  | succ f ih =>
    intro st fuel₂ h1 h2
    cases fuel₂ with
    | zero => omega
    | succ f₂ =>
      unfold parser_results
      cases hn : parser_next input st with
      | none => rfl
      | some r =>
        obtain ⟨r, st'⟩ := r
        dsimp only
        have hlt := parser_next_consumes hn
        have heq := ih st' f₂ (by omega) (by omega)
        cases r.value <;> dsimp only <;> rw [heq]
